import Mathlib

/-!
Verification of the quicktype CLI front end (src/cli/quicktype.ts).

This file shallowly embeds the in-scope pipeline of the single source file:

* the continuation-passing sequential mappers `mapArrayC` (lines 198-210) and
  `mapObjectValuesC` (lines 212-229);
* the pure inference functions `inferLang` (lines 243-255) and
  `inferTopLevel` (lines 257-274) together with the Node `path` primitives
  they rely on (`path.basename`, `path.extname`, `String.replace` with a
  string pattern, `substr(1)`);
* the render dispatch chain `getRenderer` / `fromRight` /
  `renderFromJsonArrayMap` / `renderAndOutput` / `workFromJsonArray`
  (lines 111-170) and the driver `main` (lines 276-301).

Modelling conventions.

* External collaborators (the rendering engine `Main`, the grammar expander,
  the filesystem, the network, stdin) are parameters collected in a `World`
  structure; the JSON value type is an opaque type parameter `J`.
* Effectful steps are modelled by computations returning `Res`, a pair of the
  chronological list of observable `Effect`s and a final `PResult`
  (normal return, `process.exit(n)`, or an uncaught runtime error).
  Continuation-passing source functions keep their continuation-passing shape.
* The mutable `resultObject` of `mapObjectValuesC` is embedded by
  state-passing: `mapArrayC` is instantiated at the answer type
  `List (String × β) → ρ`, and the callback that performs
  `resultObject[key] = newValue` applies its continuation to the updated
  association list.  Since the source is single-threaded and the accumulator
  is only touched by the active callback, this is observationally exact.
* `options` is modelled by the `Options` structure.  A field the
  command-line parser leaves undefined is `none`; in particular `options.src`
  is `none` when no positional argument is given (the source guards against
  exactly this with `options.src = options.src || []` on line 279, but only
  after `inferTopLevel` has already read `options.src.length` on line 266;
  reading `.length` of the undefined value is modelled as `PResult.crashed`).
* Asynchrony of the per-element transforms is modelled by instrumented runs
  (`mapperRun`): each element's transform emits a `call` event, an arbitrary
  number of `tick` events standing for the time before its completion
  callback fires, and a `ret` event when the callback fires.
-/

namespace Quicktype

/-- Source lines 198-210.  The sequential CPS mapper: an empty array calls the
final continuation with `[]` at once; otherwise the transform `f` runs on the
head and only its completion callback starts the recursive call on the tail
(`array.slice(1)`), the results being re-assembled with
`[first].concat(rest)`. -/
def mapArrayC {T U ρ : Type} (array : List T) (f : T → (U → ρ) → ρ)
    (continuation : List U → ρ) : ρ :=
  match array with
  | [] => continuation []
  | t :: rest =>
    f t (fun first => mapArrayC rest f (fun rs => continuation (first :: rs)))

/-- JavaScript property assignment `resultObject[key] = v` on the
association-list model of an object: overwrite an existing binding in place,
otherwise append the new binding at the end (JS insertion order). -/
def assign {β : Type} (st : List (String × β)) (key : String) (v : β) :
    List (String × β) :=
  match st with
  | [] => [(key, v)]
  | (k, w) :: rest =>
    if k = key then (k, v) :: rest else (k, w) :: assign rest key v

/-- JavaScript property read `obj[key]` (line 221) for a key obtained from
`Object.keys(obj)`: the first binding of `key`.  The default is never reached
on the keys the source iterates over. -/
def objLookup {α : Type} [Inhabited α] (obj : List (String × α))
    (key : String) : α :=
  (List.lookup key obj).getD default

/-- The per-key transform handed to `mapArrayC` by `mapObjectValuesC`
(source lines 220-225): look the key up, run `f` on the value, and on `f`'s
callback store the new value under the same key before invoking the array
continuation (the stored object is state-passed, see the file header). -/
def objStep {α β ρ : Type} [Inhabited α] (obj : List (String × α))
    (f : α → (β → ρ) → ρ) :
    String → (Unit → List (String × β) → ρ) → List (String × β) → ρ :=
  fun key arrayContinuation acc =>
    f (objLookup obj key)
      (fun newValue => arrayContinuation () (assign acc key newValue))

/-- Source lines 212-229.  Maps `f` over the values of `obj` one key at a
time via `mapArrayC` over `Object.keys(obj)`, accumulating `resultObject`
(modelled as the state-passed association list starting from `{}`), and hands
the accumulated object to `continuation`. -/
def mapObjectValuesC {α β ρ : Type} [Inhabited α] (obj : List (String × α))
    (f : α → (β → ρ) → ρ) (continuation : List (String × β) → ρ) : ρ :=
  mapArrayC (obj.map Prod.fst) (objStep obj f)
    (fun _ acc => continuation acc) []

/-- Events of an instrumented `mapArrayC` run: `call i` marks the invocation
of the transform on element `i`, `tick` marks time passing while element
`i`'s asynchronous work is pending, and `ret i` marks the firing of element
`i`'s completion callback. -/
inductive MEvent where
  | call : Nat → MEvent
  | ret : Nat → MEvent
  | tick : MEvent
deriving DecidableEq, Repr

/-- The full event segment contributed by element `i` when its transform
takes `d i` ticks before completing. -/
def seg (d : Nat → Nat) (i : Nat) : List MEvent :=
  MEvent.call i :: (List.replicate (d i) MEvent.tick ++ [MEvent.ret i])

/-- An instrumented asynchronous transform: on element `(i, t)` it records
`call i`, then `d i` ticks of waiting, then `ret i` at the moment its
completion callback fires with the value `g t`. -/
def mapperStep {T U : Type} (g : T → U) (d : Nat → Nat) :
    Nat × T → (U → List MEvent × List U) → List MEvent × List U :=
  fun p k =>
    let r := k (g p.2)
    (MEvent.call p.1 :: (List.replicate (d p.1) MEvent.tick ++
        MEvent.ret p.1 :: r.1), r.2)

/-- Run `mapArrayC` on `arr` with the instrumented transform: the result is
the chronological event trace together with the list delivered to the final
continuation. -/
def mapperRun {T U : Type} (g : T → U) (d : Nat → Nat) (arr : List T) :
    List MEvent × List U :=
  mapArrayC arr.enum (mapperStep g d) (fun us => ([], us))

/-- Split a character list at every slash, keeping empty segments
(the helper behind the `path.basename` model). -/
def splitOnSlash : List Char → List (List Char)
  | [] => [[]]
  | c :: rest =>
    let r := splitOnSlash rest
    if c = '/' then [] :: r
    else
      match r with
      | [] => [[c]]
      | s :: ss => (c :: s) :: ss

/-- Node `path.basename` (POSIX): the last non-empty path segment, ignoring
trailing slashes; an all-slash path gives the root and the empty path gives
the empty string. -/
def basename (p : String) : String :=
  match (splitOnSlash p.toList).reverse.dropWhile (fun s => s.isEmpty) with
  | [] => if p.toList.isEmpty then "" else "/"
  | s :: _ => String.mk s

/-- Index of the last dot in a character list, if any. -/
def lastDotIdx : List Char → Option Nat
  | [] => none
  | c :: rest =>
    match lastDotIdx rest with
    | some i => some (i + 1)
    | none => if c = '.' then some 0 else none

/-- Node `path.extname`: the substring of the basename from its last dot to
the end; the empty string when the basename has no dot, when its only dot is
the leading character, or for the special name `..`. -/
def extname (p : String) : String :=
  let b := (basename p).toList
  if b = ['.', '.'] then ""
  else
    match lastDotIdx b with
    | none => ""
    | some 0 => ""
    | some (i + 1) => String.mk (b.drop (i + 1))

/-- Index of the first occurrence of `pat` in a character list (JavaScript
`String.indexOf`); the empty pattern occurs at index 0. -/
def findSub (pat : List Char) : List Char → Option Nat
  | [] => if pat.isEmpty then some 0 else none
  | c :: rest =>
    if pat.isPrefixOf (c :: rest) then some 0
    else (findSub pat rest).map (· + 1)

/-- JavaScript `s.replace(pat, repl)` with a string pattern: replace only the
first occurrence of `pat`, or return `s` unchanged when `pat` does not
occur. -/
def replaceFirst (s pat repl : String) : String :=
  match findSub pat.toList s.toList with
  | none => s
  | some i =>
    String.mk (s.toList.take i ++ repl.toList ++
      s.toList.drop (i + pat.toList.length))

/-- One entry of the rendering engine's advertised `Main.renderers`
catalogue, with the three identifiers `getRenderer` matches against. -/
structure Renderer where
  extension : String
  aceMode : String
  name : String
deriving DecidableEq, Repr

/-- The parsed command-line options.  `none` stands for a flag the parser
left undefined; `srcLang` has the parser-supplied default value `json`. -/
structure Options where
  out : Option String
  topLevel : Option String
  lang : Option String
  srcLang : String
  src : Option (List String)
  urlsFrom : Option String
  help : Bool
deriving DecidableEq, Repr

/-- Observable effects of one invocation, in chronological order. -/
inductive Effect where
  | writeStderr : String → Effect
  | writeStdout : String → Effect
  | writeFile : String → String → Effect
  | printUsage : Effect
  | openFile : String → Effect
  | fetchUrl : String → Effect
  | readFile : String → Effect
  | readStdin : Effect
deriving DecidableEq, Repr

/-- How one invocation ends: a normal return, `process.exit code`, or an
uncaught runtime error (reading a property of `undefined`). -/
inductive PResult where
  | ok : PResult
  | exited : Nat → PResult
  | crashed : PResult
deriving DecidableEq, Repr

/-- The observable outcome of a computation: its effect trace and how it
ends. -/
abbrev Res := List Effect × PResult

/-- Record an effect in front of a computation's trace. -/
def emit (e : Effect) (r : Res) : Res := (e :: r.1, r.2)

/-- The aggregate handed to the rendering engine: top-level name to ordered
JSON sample sequence. -/
abbrev JsonArrayMap (J : Type) := List (String × List J)

/-- The external collaborators of the CLI, fixed for one invocation:
the engine's renderer catalogue and two pipelines, the filesystem and
network (a source resolves to `sourceJson s` after an `openFile` or
`fetchUrl` effect according to `fsExists`), standard input, and the grammar
expander (`readFileSync` + `JSON.parse` + `Main.urlsFromJsonGrammar`,
keyed by the grammar file path). -/
structure World (J : Type) where
  renderers : List Renderer
  renderJson : JsonArrayMap J → Renderer → Except String String
  renderSchema : JsonArrayMap J → Renderer → Except String String
  fsExists : String → Bool
  sourceJson : String → J
  stdinJson : J
  urlsFromJsonGrammar : String → Except String (List (String × List String))

/-- Line 113: `[r.extension, r.aceMode, r.name].indexOf(options.lang) !== -1`. -/
def rMatch (lang : String) (r : Renderer) : Bool :=
  lang == r.extension || lang == r.aceMode || lang == r.name

/-- Line 117 error text. -/
def unsupportedLangMsg (lang : String) : String :=
  "\x27" ++ lang ++ "\x27 is not yet supported as an output language."

/-- Line 145 error text. -/
def inputLangMsg (srcLang : String) : String :=
  "Input language \x27" ++ srcLang ++ "\x27 is not supported."

/-- Line 248 error text. -/
def noExtensionMsg : String :=
  "Please specify a language (--lang) or an output file extension."

/-- Source lines 111-122: find the first advertised renderer whose
extension, ace mode, or display name equals the selected language; if none
matches, report to stderr and `process.exit(1)`. -/
def getRenderer {J : Type} (w : World J) (lang : String)
    (k : Renderer → Res) : Res :=
  match w.renderers.find? (rMatch lang) with
  | some renderer => k renderer
  | none =>
    ([Effect.writeStderr (unsupportedLangMsg lang)], PResult.exited 1)

/-- Source lines 124-132: unwrap the engine's Either; a `Left` payload is
written to stderr followed by `process.exit(1)`. -/
def fromRight (either : Except String String) (k : String → Res) : Res :=
  match either with
  | Except.error result => ([Effect.writeStderr result], PResult.exited 1)
  | Except.ok result => k result

/-- Lines 139-142: the `{json: ..., schema: ...}[options["src-lang"]]`
pipeline lookup. -/
def pipelineFor {J : Type} (w : World J) (srcLang : String) :
    Option (JsonArrayMap J → Renderer → Except String String) :=
  if srcLang = "json" then some w.renderJson
  else if srcLang = "schema" then some w.renderSchema
  else none

/-- Source lines 138-155: check the source language, look the renderer up,
invoke the engine pipeline and unwrap its outcome. -/
def renderFromJsonArrayMap {J : Type} (w : World J) (srcLang lang : String)
    (jsonArrayMap : JsonArrayMap J) (k : String → Res) : Res :=
  match pipelineFor w srcLang with
  | none => ([Effect.writeStderr (inputLangMsg srcLang)], PResult.exited 1)
  | some pipeline =>
    getRenderer w lang
      (fun renderer => fromRight (pipeline jsonArrayMap renderer) k)

/-- Source lines 157-164: render, then write the generated text to the
output file when `--out` is given and to standard output otherwise. -/
def renderAndOutput {J : Type} (w : World J) (out : Option String)
    (srcLang lang : String) (jsonArrayMap : JsonArrayMap J) : Res :=
  renderFromJsonArrayMap w srcLang lang jsonArrayMap (fun output =>
    match out with
    | some o => ([Effect.writeFile o output], PResult.ok)
    | none => ([Effect.writeStdout output], PResult.ok))

/-- Source lines 166-170: wrap a sample array under the resolved top-level
name and render. -/
def workFromJsonArray {J : Type} (w : World J) (out : Option String)
    (srcLang lang topLevel : String) (jsonArray : List J) : Res :=
  renderAndOutput w out srcLang lang [(topLevel, jsonArray)]

/-- Source lines 231-237: an existing filesystem entry is opened as a file
stream, anything else is fetched over the network; either way the assembled
JSON value is passed on. -/
def parseFileOrUrl {J : Type} (w : World J) (fileOrUrl : String)
    (continueWithJson : J → Res) : Res :=
  if w.fsExists fileOrUrl then
    emit (Effect.openFile fileOrUrl) (continueWithJson (w.sourceJson fileOrUrl))
  else
    emit (Effect.fetchUrl fileOrUrl) (continueWithJson (w.sourceJson fileOrUrl))

/-- Source lines 239-241. -/
def parseFileOrUrlArray {J : Type} (w : World J) (filesOrUrls : List String)
    (continuation : List J → Res) : Res :=
  mapArrayC filesOrUrls (parseFileOrUrl w) continuation

/-- Line 251: `extension.substr(1)`, the extension without its leading
dot. -/
def extLang (o : String) : String :=
  String.mk ((extname o).toList.drop 1)

/-- Source lines 243-255: the output file extension determines the language
when `--lang` is undefined; a missing extension is fatal; without `--out`
the fallback language is `go`.  (`extension.substr(1)` drops the leading
dot.) -/
def inferLang (out : Option String) (k : String → Res) : Res :=
  match out with
  | some o =>
    if extname o = "" then
      ([Effect.writeStderr noExtensionMsg], PResult.exited 1)
    else k (extLang o)
  | none => k "go"

/-- Source lines 257-274: the output filename with the first occurrence of
its extension removed determines the top-level name; otherwise a single
source's filename likewise; otherwise the literal `TopLevel`.  When
`options.src` is undefined, line 266 reads `.length` of `undefined` and the
process crashes. -/
def inferTopLevel (out : Option String) (src : Option (List String))
    (k : String → Res) : Res :=
  match out with
  | some o => k (replaceFirst (basename o) (extname o) "")
  | none =>
    match src with
    | none => ([], PResult.crashed)
    | some srcs =>
      match srcs with
      | [s] => k (replaceFirst (basename s) (extname s) "")
      | _ => k "TopLevel"

/-- Line 277: `options["lang"] = options["lang"] || inferLang()`. -/
def resolveLang (options : Options) (k : String → Res) : Res :=
  match options.lang with
  | some l => k l
  | none => inferLang options.out k

/-- Line 278: `options["top-level"] = options["top-level"] || inferTopLevel()`. -/
def resolveTopLevel (options : Options) (k : String → Res) : Res :=
  match options.topLevel with
  | some t => k t
  | none => inferTopLevel options.out options.src k

/-- Source lines 276-301: the driver.  It resolves the language and the
top-level name (lines 277-278, either of which can abort), coalesces
`options.src` (line 279), and dispatches on the invocation shape: usage for
no arguments or `--help`; grammar expansion for `--urls-from`; standard
input when no positional source is given; the single-source pipeline for
exactly one source; usage plus `process.exit(1)` otherwise. -/
def main {J : Type} (w : World J) (args : List String)
    (options : Options) : Res :=
  resolveLang options (fun lang =>
  resolveTopLevel options (fun topLevel =>
    let src := options.src.getD []
    if args.length = 0 ∨ options.help = true then
      ([Effect.printUsage], PResult.ok)
    else
      match options.urlsFrom with
      | some grammarFile =>
        (match w.urlsFromJsonGrammar grammarFile with
         | Except.error result =>
           ([Effect.readFile grammarFile,
             Effect.writeStderr ("Error: " ++ result)], PResult.exited 1)
         | Except.ok result =>
           emit (Effect.readFile grammarFile)
             (mapObjectValuesC result (parseFileOrUrlArray w)
               (renderAndOutput w options.out options.srcLang lang)))
      | none =>
        if src.length = 0 then
          emit Effect.readStdin
            (workFromJsonArray w options.out options.srcLang lang topLevel
              [w.stdinJson])
        else if src.length = 1 then
          parseFileOrUrlArray w src
            (workFromJsonArray w options.out options.srcLang lang topLevel)
        else
          ([Effect.printUsage], PResult.exited 1)))

/-- A renderer catalogue entry used by the concrete witness runs. -/
def rendererEx : Renderer :=
  { extension := "cs", aceMode := "csharp", name := "C#" }

/-- A second catalogue entry used by the concrete witness runs. -/
def rendererGoEx : Renderer :=
  { extension := "go", aceMode := "golang", name := "Go" }

/-- A concrete world for witness runs: one advertised renderer, an engine
that always succeeds with the text `CODE`, every path existing on the
filesystem. -/
def wEx : World Unit where
  renderers := [rendererEx]
  renderJson := fun _ _ => Except.ok "CODE"
  renderSchema := fun _ _ => Except.ok "SCHEMA"
  fsExists := fun _ => true
  sourceJson := fun _ => ()
  stdinJson := ()
  urlsFromJsonGrammar := fun _ => Except.error "no grammar"

/-- A concrete world whose engine always reports the error payload `ERR`. -/
def wErr : World Unit where
  renderers := [rendererEx]
  renderJson := fun _ _ => Except.error "ERR"
  renderSchema := fun _ _ => Except.error "ERR"
  fsExists := fun _ => true
  sourceJson := fun _ => ()
  stdinJson := ()
  urlsFromJsonGrammar := fun _ => Except.error "no grammar"

/-- A concrete world with two advertised renderers for the first-match
witness. -/
def w2Ex : World Unit where
  renderers := [rendererEx, rendererGoEx]
  renderJson := fun _ _ => Except.ok "CODE"
  renderSchema := fun _ _ => Except.ok "SCHEMA"
  fsExists := fun _ => true
  sourceJson := fun _ => ()
  stdinJson := ()
  urlsFromJsonGrammar := fun _ => Except.error "no grammar"

/-- A concrete continuation for witness runs. -/
def kEx : Renderer → Res := fun _ => ([], PResult.ok)

/-- A concrete continuation recording the string it receives. -/
def kName : String → Res := fun n => ([Effect.writeStdout n], PResult.ok)

/-- Does this effect open a file or issue a network request, i.e. attempt
source resolution? -/
def isResolveEffect : Effect → Bool
  | Effect.openFile _ => true
  | Effect.fetchUrl _ => true
  | _ => false

/-- A transform that invokes its completion callback once with `g t` makes
`mapArrayC` deliver exactly the mapped list, in input order. -/
theorem mapArrayC_pure {T U ρ : Type} (f : T → (U → ρ) → ρ) (g : T → U)
    (hf : ∀ t k, f t k = k (g t)) :
    ∀ (arr : List T) (cont : List U → ρ),
      mapArrayC arr f cont = cont (arr.map g) := by
  intro arr
  induction arr with
  | nil => intro cont; rfl
  | cons t rest ih =>
    intro cont
    show f t (fun first => mapArrayC rest f (fun rs => cont (first :: rs))) = _
    rw [hf, ih]
    rfl

/-- Characterization of an instrumented `mapArrayC` run over an indexed
list: the trace is the concatenation of the per-element segments in input
order, and the final continuation receives the mapped values in input
order. -/
theorem mapArrayC_mapperStep {T U : Type} (g : T → U) (d : Nat → Nat) :
    ∀ (ps : List (Nat × T)) (cont : List U → List MEvent × List U),
      mapArrayC ps (mapperStep g d) cont =
        (ps.flatMap (fun p => seg d p.1) ++ (cont (ps.map (fun p => g p.2))).1,
         (cont (ps.map (fun p => g p.2))).2) := by
  intro ps
  induction ps with
  | nil => intro cont; simp [mapArrayC]
  | cons p ps ih =>
    intro cont
    have hstep : mapArrayC (p :: ps) (mapperStep g d) cont =
        (MEvent.call p.1 :: (List.replicate (d p.1) MEvent.tick ++
          MEvent.ret p.1 ::
            (mapArrayC ps (mapperStep g d)
              (fun rs => cont (g p.2 :: rs))).1),
         (mapArrayC ps (mapperStep g d)
            (fun rs => cont (g p.2 :: rs))).2) := rfl
    rw [hstep, ih (fun rs => cont (g p.2 :: rs))]
    simp [seg, List.append_assoc]

/-- The list whose elements are flat-mapped only through their first
components can be replaced by its list of first components. -/
theorem flatMap_fst {α β : Type} (f : Nat → List β) (l : List (Nat × α)) :
    l.flatMap (fun p => f p.1) = (l.map Prod.fst).flatMap f := by
  induction l with
  | nil => rfl
  | cons p l ih => simp [ih]

/-- Closed form of an instrumented run: the trace is the ordered
concatenation of the segments of elements `0, 1, ...`, and the delivered
list is the mapped input, whatever the per-element delays are. -/
theorem mapperRun_eq {T U : Type} (g : T → U) (d : Nat → Nat)
    (arr : List T) :
    mapperRun g d arr =
      ((List.range arr.length).flatMap (seg d), arr.map g) := by
  unfold mapperRun
  rw [mapArrayC_mapperStep]
  refine Prod.ext ?_ ?_
  · show arr.enum.flatMap (fun p => seg d p.1) ++ [] = _
    rw [List.append_nil, flatMap_fst, List.enum_map_fst]
  · show arr.enum.map (fun p => g p.2) = arr.map g
    rw [show (fun p : Nat × T => g p.2) = g ∘ Prod.snd from rfl,
      ← List.map_map, List.enum_map_snd]

/-- C1: for every input sequence and asynchronous per-element transform
(one that computes `g` and fires its completion callback once), the
Sequential Async Mapper `mapArrayC` delivers to its final continuation the
sequence of transform outputs, one per input element and in input order;
the empty input completes immediately with the empty result; and in the
instrumented run the delivered list is independent of the per-element
completion delays `d`. -/
theorem mapArrayC_delivers_in_order {T U ρ : Type} (f : T → (U → ρ) → ρ)
    (g : T → U) (arr : List T) (cont : List U → ρ) (d : Nat → Nat)
    (hf : ∀ t k, f t k = k (g t)) :
    mapArrayC arr f cont = cont (arr.map g)
    ∧ mapArrayC ([] : List T) f cont = cont []
    ∧ (mapperRun g d arr).2 = arr.map g := by
  refine ⟨mapArrayC_pure f g hf arr cont, rfl, ?_⟩
  rw [mapperRun_eq]

/-- Witness for C1 at the concrete doubling transform on `[1, 2, 3]`. -/
theorem mapArrayC_delivers_in_order_witness :
    mapArrayC [1, 2, 3] (fun (t : Nat) (k : Nat → List Nat) => k (2 * t))
        (fun us => us) = [2, 4, 6]
    ∧ mapArrayC ([] : List Nat)
        (fun (t : Nat) (k : Nat → List Nat) => k (2 * t)) (fun us => us) = []
    ∧ (mapperRun (fun (t : Nat) => 2 * t) (fun _ => 1) [1, 2, 3]).2
        = [2, 4, 6] := by
  have h := mapArrayC_delivers_in_order
    (fun (t : Nat) (k : Nat → List Nat) => k (2 * t)) (fun t => 2 * t)
    [1, 2, 3] (fun us => us) (fun _ => 1) (fun _ _ => rfl)
  exact ⟨h.1.trans (by decide), h.2.1, h.2.2.trans (by decide)⟩

/-- C2: in every instrumented run, the transform of element `i + 1` is
invoked (its `call` event occurs) only after element `i`'s completion
callback has fired (its `ret` event), whatever the completion delays are:
the trace splits at `ret i` with every `call (i+1)` strictly after it. -/
theorem mapArrayC_one_at_a_time {T U : Type} (g : T → U) (d : Nat → Nat)
    (arr : List T) (i : Nat) (h : i + 1 < arr.length) :
    ∃ pre post, (mapperRun g d arr).1 = pre ++ MEvent.ret i :: post
      ∧ MEvent.call (i + 1) ∉ pre ∧ MEvent.call (i + 1) ∈ post := by
  obtain ⟨m, hm⟩ : ∃ m, arr.length = (i + 2) + m :=
    ⟨arr.length - (i + 2), by omega⟩
  refine ⟨(List.range i).flatMap (seg d) ++
      (MEvent.call i :: List.replicate (d i) MEvent.tick),
    (seg d (i + 1) ++
      ((List.range m).map (fun x => (i + 2) + x)).flatMap (seg d)), ?_, ?_, ?_⟩
  · rw [mapperRun_eq]
    show (List.range arr.length).flatMap (seg d) = _
    rw [hm, List.range_add,
      show i + 2 = (i + 1) + 1 from rfl, List.range_succ, List.range_succ]
    simp [seg, List.flatMap_append, List.append_assoc]
  · intro hmem
    rcases List.mem_append.mp hmem with hmem | hmem
    · rcases List.mem_flatMap.mp hmem with ⟨j, hj, hmem⟩
      have hj2 : j < i := List.mem_range.mp hj
      rcases List.mem_cons.mp hmem with hc | hmem
      · injection hc with e; omega
      · rcases List.mem_append.mp hmem with hmem | hmem
        · cases List.eq_of_mem_replicate hmem
        · cases List.mem_singleton.mp hmem
    · rcases List.mem_cons.mp hmem with hc | hmem
      · injection hc with e; omega
      · cases List.eq_of_mem_replicate hmem
  · exact List.mem_append_left _ (List.mem_cons_self _ _)

/-- Witness for C2 on the two-element input `[10, 20]` with one tick of
delay per element. -/
theorem mapArrayC_one_at_a_time_witness :
    (0 + 1 < ([10, 20] : List Nat).length)
    ∧ ∃ pre post,
        (mapperRun (fun (t : Nat) => 2 * t) (fun _ => 1) [10, 20]).1
          = pre ++ MEvent.ret 0 :: post
        ∧ MEvent.call (0 + 1) ∉ pre ∧ MEvent.call (0 + 1) ∈ post :=
  ⟨by decide,
   mapArrayC_one_at_a_time (fun t => 2 * t) (fun _ => 1) [10, 20] 0 (by decide)⟩

/-- Looking a member pair up in an association list with distinct keys
yields that pair's value. -/
theorem lookup_of_mem_nodup {α : Type} :
    ∀ (obj : List (String × α)), (obj.map Prod.fst).Nodup →
      ∀ p ∈ obj, List.lookup p.1 obj = some p.2 := by
  intro obj
  induction obj with
  | nil => intro _ p hp; cases hp
  | cons q rest ih =>
    obtain ⟨k, v⟩ := q
    intro hnd p hp
    simp only [List.map_cons] at hnd
    have hnd2 := List.nodup_cons.mp hnd
    rcases List.mem_cons.mp hp with rfl | hp
    · simp [List.lookup_cons]
    · have hpk : p.1 ∈ rest.map Prod.fst := List.mem_map_of_mem Prod.fst hp
      have hne : (p.1 == k) = false := by
        have : p.1 ≠ k := fun e => hnd2.1 (e ▸ hpk)
        simpa using this
      rw [List.lookup_cons, hne]
      exact ih hnd2.2 p hp

/-- Assigning a key not yet present appends the binding at the end. -/
theorem assign_of_not_mem {β : Type} :
    ∀ (st : List (String × β)) (key : String) (v : β),
      key ∉ st.map Prod.fst → assign st key v = st ++ [(key, v)] := by
  intro st
  induction st with
  | nil => intro key v _; rfl
  | cons q rest ih =>
    obtain ⟨k, w2⟩ := q
    intro key v h
    simp only [List.map_cons, List.mem_cons] at h
    push_neg at h
    have hne : k ≠ key := fun e => h.1 e.symm
    simp [assign, hne, ih key v h.2]

/-- Folding the per-key assignment over an object's keys, with all keys
distinct and fresh for the accumulator, appends the transformed bindings in
key order. -/
theorem foldl_assign_eq {α β : Type} [Inhabited α]
    (obj0 : List (String × α)) (g : α → β) :
    ∀ (obj : List (String × α)) (acc : List (String × β)),
      (∀ p ∈ obj, List.lookup p.1 obj0 = some p.2) →
      (obj.map Prod.fst).Nodup →
      (∀ p ∈ obj, p.1 ∉ acc.map Prod.fst) →
      List.foldl (fun a key => assign a key (g (objLookup obj0 key))) acc
          (obj.map Prod.fst) =
        acc ++ obj.map (fun p => (p.1, g p.2)) := by
  intro obj
  induction obj with
  | nil => intro acc _ _ _; simp
  | cons q rest ih =>
    obtain ⟨k0, v0⟩ := q
    intro acc hL hnd hacc
    simp only [List.map_cons] at hnd
    have hnd2 := List.nodup_cons.mp hnd
    have hlk : objLookup obj0 k0 = v0 := by
      have := hL (k0, v0) (List.mem_cons_self _ _)
      simp [objLookup, this]
    have hfresh : k0 ∉ acc.map Prod.fst :=
      hacc (k0, v0) (List.mem_cons_self _ _)
    have hacc2 : ∀ p ∈ rest, p.1 ∉ (acc ++ [(k0, g v0)]).map Prod.fst := by
      intro p hp hmem
      have hpk : p.1 ∈ rest.map Prod.fst := List.mem_map_of_mem Prod.fst hp
      have hne : p.1 ≠ k0 := fun e => hnd2.1 (e ▸ hpk)
      simp only [List.map_append, List.mem_append, List.map_cons,
        List.map_nil, List.mem_singleton] at hmem
      rcases hmem with hmem | hmem
      · exact hacc p (List.mem_cons_of_mem _ hp) hmem
      · exact hne hmem
    simp only [List.map_cons, List.foldl_cons]
    rw [hlk, assign_of_not_mem acc k0 (g v0) hfresh]
    rw [ih (acc ++ [(k0, g v0)])
      (fun p hp => hL p (List.mem_cons_of_mem _ hp)) hnd2.2 hacc2]
    simp

/-- State-passing unfolding of the key loop inside `mapObjectValuesC` for a
transform that computes `g`: the run folds the assignments over the keys in
order and hands the accumulated object to the continuation. -/
theorem mapObj_go {α β ρ : Type} [Inhabited α] (obj0 : List (String × α))
    (f : α → (β → ρ) → ρ) (g : α → β) (hf : ∀ v k, f v k = k (g v)) :
    ∀ (ks : List String) (h : List (String × β) → ρ)
      (acc : List (String × β)),
      mapArrayC ks (objStep obj0 f) (fun _ => h) acc =
        h (List.foldl
            (fun a key => assign a key (g (objLookup obj0 key))) acc ks) := by
  intro ks
  induction ks with
  | nil => intro h acc; rfl
  | cons key ks ih =>
    intro h acc
    calc mapArrayC (key :: ks) (objStep obj0 f) (fun _ => h) acc
        = f (objLookup obj0 key)
            (fun newValue =>
              mapArrayC ks (objStep obj0 f) (fun _ => h)
                (assign acc key newValue)) := rfl
      _ = mapArrayC ks (objStep obj0 f) (fun _ => h)
            (assign acc key (g (objLookup obj0 key))) := hf _ _
      _ = h (List.foldl
            (fun a key => assign a key (g (objLookup obj0 key))) acc
            (key :: ks)) := by rw [ih, List.foldl_cons]

/-- C3: for every object with (necessarily) distinct keys and every
asynchronous per-element transform that computes `g` and fires its callback
once, the Object-Values Async Mapper delivers an object with exactly the
same keys in the same order, each bound to the transform's output for that
key's original value. -/
theorem mapObjectValuesC_preserves_keys {α β ρ : Type} [Inhabited α]
    (obj : List (String × α)) (f : α → (β → ρ) → ρ) (g : α → β)
    (continuation : List (String × β) → ρ)
    (hnd : (obj.map Prod.fst).Nodup) (hf : ∀ v k, f v k = k (g v)) :
    mapObjectValuesC obj f continuation =
      continuation (obj.map (fun p => (p.1, g p.2))) := by
  unfold mapObjectValuesC
  rw [mapObj_go obj f g hf (obj.map Prod.fst)
    (fun acc => continuation acc) []]
  rw [foldl_assign_eq obj g obj [] (lookup_of_mem_nodup obj hnd) hnd
    (by simp)]
  simp

/-- A list's first element satisfying a predicate, located by position, is
what `find?` returns. -/
theorem find?_first {α : Type} (p : α → Bool) :
    ∀ (l : List α) (i : Nat) (hi : i < l.length),
      p (l.get ⟨i, hi⟩) = true →
      (∀ (j : Nat) (hj : j < i), ¬ p (l.get ⟨j, Nat.lt_trans hj hi⟩) = true) →
      l.find? p = some (l.get ⟨i, hi⟩) := by
  intro l
  induction l with
  | nil => intro i hi; exact absurd hi (by simp)
  | cons a t ih =>
    intro i hi hp hfirst
    cases i with
    | zero =>
      have hpa : p a = true := hp
      simp [List.find?_cons, hpa]
    | succ i =>
      have hpa : p a = false := by
        cases hpa2 : p a with
        | false => rfl
        | true => exact absurd hpa2 (hfirst 0 (Nat.succ_pos i))
      rw [List.find?_cons, hpa]
      exact ih i (Nat.lt_of_succ_lt_succ hi) hp
        (fun j hj => hfirst (j + 1) (Nat.succ_lt_succ hj))

/-- C10: a target-language selector is accepted exactly when it equals some
advertised renderer's file extension, ace mode, or display name;
`getRenderer` hands its continuation the first matching renderer in the
advertised order, and writes an error and exits 1 when none matches. -/
theorem getRenderer_spec {J : Type} (w : World J) (lang : String)
    (k : Renderer → Res) :
    ((∀ r ∈ w.renderers, rMatch lang r = false) →
      getRenderer w lang k =
        ([Effect.writeStderr (unsupportedLangMsg lang)], PResult.exited 1))
    ∧ (∀ (i : Nat) (hi : i < w.renderers.length),
        rMatch lang (w.renderers.get ⟨i, hi⟩) = true →
        (∀ (j : Nat) (hj : j < i),
          ¬ rMatch lang (w.renderers.get ⟨j, Nat.lt_trans hj hi⟩) = true) →
        getRenderer w lang k = k (w.renderers.get ⟨i, hi⟩))
    ∧ (∀ r : Renderer, rMatch lang r = true ↔
        (lang = r.extension ∨ lang = r.aceMode ∨ lang = r.name)) := by
  refine ⟨?_, ?_, ?_⟩
  · intro hno
    have hfind : w.renderers.find? (rMatch lang) = none :=
      List.find?_eq_none.mpr (fun r hr => by simp [hno r hr])
    simp [getRenderer, hfind]
  · intro i hi hp hfirst
    have hfind := find?_first (rMatch lang) w.renderers i hi hp hfirst
    simp [getRenderer, hfind]
  · intro r
    simp [rMatch, Bool.or_eq_true, beq_iff_eq, or_assoc]

/-- Witness for C10 on a two-renderer catalogue: `golang` selects the
second renderer (matched by its ace mode), an unknown selector errors
out, and the acceptance condition is the three-identifier disjunction. -/
theorem getRenderer_spec_witness :
    getRenderer w2Ex "golang" kEx = kEx rendererGoEx
    ∧ getRenderer w2Ex "zzz" kEx =
        ([Effect.writeStderr (unsupportedLangMsg "zzz")], PResult.exited 1)
    ∧ (rMatch "golang" rendererGoEx = true ↔
        ("golang" = rendererGoEx.extension ∨ "golang" = rendererGoEx.aceMode
          ∨ "golang" = rendererGoEx.name)) := by
  have h := getRenderer_spec w2Ex "golang" kEx
  have h2 := getRenderer_spec w2Ex "zzz" kEx
  refine ⟨?_, h2.1 (by decide), h.2.2 rendererGoEx⟩
  refine h.2.1 1 (by decide) (by decide) ?_
  intro j hj
  have hj0 : j = 0 := by omega
  subst hj0
  exact (by decide : ¬ rMatch "golang" rendererEx = true)

/-- C8: whenever the selected pipeline reports an error payload, the
payload text goes to stderr and the process exits 1; the trace contains no
file write and no stdout write, so no output file is created or
overwritten. -/
theorem render_error_no_output {J : Type} (w : World J) (out : Option String)
    (srcLang lang : String) (m : JsonArrayMap J)
    (pl : JsonArrayMap J → Renderer → Except String String)
    (r : Renderer) (msg : String)
    (hp : pipelineFor w srcLang = some pl)
    (hr : w.renderers.find? (rMatch lang) = some r)
    (he : pl m r = Except.error msg) :
    renderAndOutput w out srcLang lang m =
      ([Effect.writeStderr msg], PResult.exited 1) := by
  simp [renderAndOutput, renderFromJsonArrayMap, hp, getRenderer, hr,
    fromRight, he]

/-- Witness for C8: the always-failing engine's payload `ERR` is the only
effect and the run exits 1, leaving the output destination untouched. -/
theorem render_error_no_output_witness :
    renderAndOutput wErr (some "out.cs") "json" "cs" ([] : JsonArrayMap Unit)
      = ([Effect.writeStderr "ERR"], PResult.exited 1) :=
  render_error_no_output wErr (some "out.cs") "json" "cs" []
    wErr.renderJson rendererEx "ERR" rfl (by decide) rfl

/-- C6: with no language flag, the selected language is the output
destination's extension without its dot; an output destination without an
extension aborts the whole run with the configuration message on stderr and
exit 1 before any other effect; without an output destination the fallback
language `go` is selected; and the extension-derived language is what the
renderer lookup uses during rendering. -/
theorem inferLang_spec :
    (∀ (o : String) (k : String → Res), extname o ≠ "" →
      inferLang (some o) k = k (extLang o))
    ∧ (∀ k : String → Res, inferLang none k = k "go")
    ∧ (∀ (J : Type) (w : World J) (args : List String) (o : String)
        (topLevel : Option String) (src : Option (List String))
        (urlsFrom : Option String) (srcLang : String) (help : Bool),
        extname o = "" →
        main w args ⟨some o, topLevel, none, srcLang, src, urlsFrom, help⟩ =
          ([Effect.writeStderr noExtensionMsg], PResult.exited 1))
    ∧ (∀ (J : Type) (w : World J) (a0 : String) (args2 : List String)
        (o t code : String) (r : Renderer),
        extname o ≠ "" →
        w.renderers.find? (rMatch (extLang o)) = some r →
        w.renderJson [(t, [w.stdinJson])] r = Except.ok code →
        main w (a0 :: args2) ⟨some o, some t, none, "json", none, none, false⟩ =
          ([Effect.readStdin, Effect.writeFile o code], PResult.ok)) := by
  refine ⟨?_, ?_, ?_, ?_⟩
  · intro o k hext
    simp [inferLang, hext]
  · intro k
    rfl
  · intro J w args o topLevel src urlsFrom srcLang help hext
    simp [main, resolveLang, inferLang, hext]
  · intro J w a0 args2 o t code r hext hr hok
    simp [main, resolveLang, resolveTopLevel, inferLang, hext,
      workFromJsonArray, renderAndOutput, renderFromJsonArrayMap,
      pipelineFor, getRenderer, hr, fromRight, hok, emit]

/-- Witness for C6 on `Foo.cs` (language `cs`), the absent destination
(fallback `go`), the extensionless destination `noext` (config error), and
a full stdin-mode run selecting the renderer via the `cs` extension. -/
theorem inferLang_spec_witness :
    inferLang (some "Foo.cs") kName = kName "cs"
    ∧ inferLang none kName = kName "go"
    ∧ main wEx ["-o", "noext"]
        ⟨some "noext", none, none, "json", none, none, false⟩ =
        ([Effect.writeStderr noExtensionMsg], PResult.exited 1)
    ∧ main wEx ["-o", "Foo.cs"]
        ⟨some "Foo.cs", some "T", none, "json", none, none, false⟩ =
        ([Effect.readStdin, Effect.writeFile "Foo.cs" "CODE"], PResult.ok) := by
  have h := inferLang_spec
  refine ⟨?_, h.2.1 kName, ?_, ?_⟩
  · exact (h.1 "Foo.cs" kName (by decide)).trans (by decide)
  · exact h.2.2.1 Unit wEx ["-o", "noext"] "noext" none none none "json" false
      (by decide)
  · exact h.2.2.2 Unit wEx "-o" ["Foo.cs"] "Foo.cs" "T" "CODE" rendererEx
      (by decide) (by decide) rfl

/-- C5 counterexample: the code removes the FIRST occurrence of the
extension from the filename, not the trailing one; for the output
destination `a.b.a.b` (extension `.b`) the claim demands the top-level name
`a.b.a` (extension stripped) but the code computes `a.a.b`. -/
theorem inferTopLevel_strip_first_cex :
    inferTopLevel (some "a.b.a.b") none kName = kName "a.a.b"
    ∧ ("a.a.b" : String) ≠ "a.b.a" := by
  exact ⟨by decide, by decide⟩

/-- C5 (amended): with no explicit top-level name, the default top-level
name is the output destination's filename with the first occurrence of its
extension removed (equal to the extension-stripped filename whenever the
extension occurs only once) when an output destination is given; otherwise
the single source's filename treated the same way when exactly one source
is given; otherwise the fallback literal `TopLevel`; and in a run the name
derived from the output destination is the key of the aggregate handed to
the engine. -/
theorem inferTopLevel_amended :
    (∀ (o : String) (src : Option (List String)) (k : String → Res),
      inferTopLevel (some o) src k =
        k (replaceFirst (basename o) (extname o) ""))
    ∧ (∀ (s : String) (k : String → Res),
      inferTopLevel none (some [s]) k =
        k (replaceFirst (basename s) (extname s) ""))
    ∧ (∀ (srcs : List String) (k : String → Res), srcs.length ≠ 1 →
      inferTopLevel none (some srcs) k = k "TopLevel")
    ∧ (∀ (J : Type) (w : World J) (a0 : String) (args2 : List String)
        (o l code : String) (r : Renderer),
        w.renderers.find? (rMatch l) = some r →
        w.renderJson
            [(replaceFirst (basename o) (extname o) "", [w.stdinJson])] r
          = Except.ok code →
        main w (a0 :: args2) ⟨some o, none, some l, "json", none, none, false⟩ =
          ([Effect.readStdin, Effect.writeFile o code], PResult.ok)) := by
  refine ⟨fun o src k => rfl, fun s k => rfl, ?_, ?_⟩
  · intro srcs k h
    match srcs with
    | [] => rfl
    | [s] => simp at h
    | s1 :: s2 :: rest => rfl
  · intro J w a0 args2 o l code r hr hok
    simp [main, resolveLang, resolveTopLevel, inferTopLevel,
      workFromJsonArray, renderAndOutput, renderFromJsonArrayMap,
      pipelineFor, getRenderer, hr, fromRight, hok, emit]

/-- Witness for C5 on `Foo.cs` (name `Foo`), a single source `user.json`
(name `user`), no sources (fallback `TopLevel`), and a full stdin-mode run
whose aggregate key is `Foo`. -/
theorem inferTopLevel_amended_witness :
    inferTopLevel (some "Foo.cs") none kName = kName "Foo"
    ∧ inferTopLevel none (some ["user.json"]) kName = kName "user"
    ∧ inferTopLevel none (some []) kName = kName "TopLevel"
    ∧ main wEx ["-o", "Foo.cs"]
        ⟨some "Foo.cs", none, some "cs", "json", none, none, false⟩ =
        ([Effect.readStdin, Effect.writeFile "Foo.cs" "CODE"], PResult.ok) := by
  have h := inferTopLevel_amended
  refine ⟨(h.1 "Foo.cs" none kName).trans (by decide),
    (h.2.1 "user.json" kName).trans (by decide),
    h.2.2.1 [] kName (by decide),
    h.2.2.2 Unit wEx "-o" ["Foo.cs"] "Foo.cs" "cs" "CODE" rendererEx
      (by decide) rfl⟩

/-- C4 counterexample: with the unsupported language flag `xyz` and the
single file source `f.json`, the run opens the file — a source resolution —
and only afterwards writes the unsupported-language message and exits 1;
the claim says the error exits the process before any file is opened. -/
theorem unsupported_lang_resolves_first_cex :
    main wEx ["-l", "xyz", "f.json"]
      ⟨none, none, some "xyz", "json", some ["f.json"], none, false⟩ =
      ([Effect.openFile "f.json",
        Effect.writeStderr (unsupportedLangMsg "xyz")], PResult.exited 1)
    ∧ (main wEx ["-l", "xyz", "f.json"]
        ⟨none, none, some "xyz", "json", some ["f.json"], none, false⟩).1.any
          isResolveEffect = true := by
  exact ⟨by decide, by decide⟩

/-- C4 (amended): for any supported source language (one the pipeline
lookup of lines 139-147 resolves, i.e. `json` or `schema`), an unsupported
target-language flag makes the process write the unsupported-language
message to stderr and exit 1, but only when the renderer is looked up
during rendering — in a single-source run the source is resolved (file
opened or request issued) BEFORE the error, not after the check. -/
theorem unsupported_lang_errors_after_resolution {J : Type} (w : World J)
    (a0 : String) (args2 : List String) (out topLevel : Option String)
    (l s srcLang : String)
    (pl : JsonArrayMap J → Renderer → Except String String)
    (hp : pipelineFor w srcLang = some pl)
    (hno : ∀ r ∈ w.renderers, rMatch l r = false) :
    main w (a0 :: args2) ⟨out, topLevel, some l, srcLang, some [s], none, false⟩ =
      ([(if w.fsExists s then Effect.openFile s else Effect.fetchUrl s),
        Effect.writeStderr (unsupportedLangMsg l)], PResult.exited 1) := by
  have hfind : w.renderers.find? (rMatch l) = none :=
    List.find?_eq_none.mpr (fun r hr => by simp [hno r hr])
  cases out <;> cases topLevel <;> cases hfs : w.fsExists s <;>
    simp [main, resolveLang, resolveTopLevel, inferTopLevel,
      parseFileOrUrlArray, mapArrayC, parseFileOrUrl, hfs, emit,
      workFromJsonArray, renderAndOutput, renderFromJsonArrayMap,
      hp, getRenderer, hfind, fromRight]

/-- Witness for C4 (amended) at the unsupported flag `xyz` and source
`f.json`, with the `schema` source language, in the concrete world where
every path exists. -/
theorem unsupported_lang_errors_after_resolution_witness :
    main wEx ["-l", "xyz", "f.json"]
      ⟨none, some "T", some "xyz", "schema", some ["f.json"], none, false⟩ =
      ([(if wEx.fsExists "f.json" then Effect.openFile "f.json"
          else Effect.fetchUrl "f.json"),
        Effect.writeStderr (unsupportedLangMsg "xyz")], PResult.exited 1) :=
  unsupported_lang_errors_after_resolution wEx "-l" ["xyz", "f.json"]
    none (some "T") "xyz" "f.json" "schema" wEx.renderSchema rfl (by decide)

/-- C9 counterexample: two positional sources together with an
extensionless output destination and no language flag exit via the
configuration error of the language-resolution step — no usage text is
printed, contradicting the claim that such invocations display usage. -/
theorem multi_source_no_usage_cex :
    main wEx ["-o", "noext", "a.json", "b.json"]
      ⟨some "noext", none, none, "json", some ["a.json", "b.json"], none,
        false⟩ =
      ([Effect.writeStderr noExtensionMsg], PResult.exited 1)
    ∧ Effect.printUsage ∉
        (main wEx ["-o", "noext", "a.json", "b.json"]
          ⟨some "noext", none, none, "json", some ["a.json", "b.json"], none,
            false⟩).1 := by
  exact ⟨by decide, by decide⟩

/-- C9 (amended): an invocation with at least one argument, more than one
positional source, no grammar file and no help flag displays the usage text
and exits 1 — with no source resolution and no rendering — provided the
language-resolution step does not abort first (a language flag is given, or
there is no output destination, or the output destination has an
extension). -/
theorem multi_source_usage_exit {J : Type} (w : World J) (a0 : String)
    (args2 : List String) (out topLevel langOpt : Option String)
    (srcLang : String) (s1 s2 : String) (rest : List String)
    (hlang : langOpt ≠ none ∨ out = none ∨ extname (out.getD "") ≠ "") :
    main w (a0 :: args2)
      ⟨out, topLevel, langOpt, srcLang, some (s1 :: s2 :: rest), none,
        false⟩ =
      ([Effect.printUsage], PResult.exited 1) := by
  rcases hlang with hl | hout | hext
  · cases langOpt with
    | none => exact absurd rfl hl
    | some l =>
      cases out <;> cases topLevel <;>
        simp [main, resolveLang, resolveTopLevel, inferTopLevel]
  · subst hout
    cases langOpt <;> cases topLevel <;>
      simp [main, resolveLang, resolveTopLevel, inferLang, inferTopLevel]
  · cases out with
    | none =>
      cases langOpt <;> cases topLevel <;>
        simp [main, resolveLang, resolveTopLevel, inferLang, inferTopLevel]
    | some o =>
      simp only [Option.getD] at hext
      cases langOpt <;> cases topLevel <;>
        simp [main, resolveLang, resolveTopLevel, inferLang, inferTopLevel,
          hext]

/-- Witness for C9 (amended) on two positional sources with a language
flag. -/
theorem multi_source_usage_exit_witness :
    main wEx ["a.json", "b.json"]
      ⟨none, none, some "cs", "json", some ["a.json", "b.json"], none,
        false⟩ =
      ([Effect.printUsage], PResult.exited 1) :=
  multi_source_usage_exit wEx "a.json" ["b.json"] none none (some "cs")
    "json" "a.json" "b.json" [] (Or.inl (by simp))

/-- C7 (code bug): an invocation with one argument, no help flag, no
grammar file and no positional sources, but also no output destination and
no top-level override, crashes while resolving the top-level name — line
266 reads `.length` of the undefined `options.src` before line 279 coalesces
it — instead of reading standard input and rendering the one-sample
aggregate under the fallback name `TopLevel`. -/
theorem stdin_mode_crashes_without_out_or_top :
    main wEx ["-l", "go"] ⟨none, none, some "go", "json", none, none, false⟩ =
      ([], PResult.crashed) := by
  decide

/-- Witness for C3 on the object `{x: 1, y: 2}` with the asynchronous
increment transform, yielding `{x: 2, y: 3}`. -/
theorem mapObjectValuesC_preserves_keys_witness :
    ((([("x", 1), ("y", 2)] : List (String × Nat)).map Prod.fst).Nodup)
    ∧ mapObjectValuesC [("x", 1), ("y", 2)]
        (fun v (k : Nat → List (String × Nat)) => k (v + 1)) (fun o => o)
      = [("x", 2), ("y", 3)] := by
  have h := mapObjectValuesC_preserves_keys [("x", 1), ("y", 2)]
    (fun v (k : Nat → List (String × Nat)) => k (v + 1)) (fun v => v + 1)
    (fun o => o) (by decide) (fun _ _ => rfl)
  exact ⟨by decide, h.trans (by decide)⟩

end Quicktype
